import Mathlib

set_option maxHeartbeats 1000000

/-!
Shallow embedding of the tag reconciliation engine of
`src/main.ts` (obsidian-frontmatter-sync).

Modelling conventions:
* JS strings are Lean `String`s (sequences of code points); the string
  operations of the source (`split`, `startsWith`, `trim`, per-character
  regex replaces) are modelled at the `List Char` level.
* JS numbers are modelled as `Int` (no claim depends on float formatting).
* A JS `Set<string>` is modelled as a duplicate-free `List String` in
  insertion order, matching the source's use of `new Set(array)`,
  `Set.add`, `Array.from`, and rebuild-from-filtered-array.
* The host's `String.prototype.localeCompare` is locale data, not part of
  the source; it is a parameter `lc : String → String → Int` of the
  engine.  `lcStd` below is one concrete consistent comparator (plain
  code-point order) used to instantiate it on concrete inputs.
* The only fallible operation reachable from the engine is
  `value.replace` inside `extractName` on a non-string truthy value
  (a JS `TypeError`); fallibility is made explicit with `Except JsError`.
-/

/-- A YAML/JS scalar value (string / number / boolean). -/
inductive Scalar where
  | str (s : String)
  | num (n : Int)
  | bool (b : Bool)
deriving DecidableEq, Repr

/-- A JS field value as the engine reads it from parsed frontmatter:
`undefined` (absent), `null`, a scalar, or an array of scalars
(the declared input domain of the spec, §3 MetadataMap). -/
inductive FieldValue where
  | undefined
  | null
  | scalar (s : Scalar)
  | list (xs : List Scalar)
deriving DecidableEq, Repr

/-- JS `String(scalar)`. -/
def Scalar.toJsString : Scalar → String
  | .str s => s
  | .num n => toString n
  | .bool b => if b then "true" else "false"

/-- JS `String(value)` on a field value: `String(null) = "null"`,
`String(undefined) = "undefined"`, arrays stringify element-wise joined
with `","`. -/
def FieldValue.toJsString : FieldValue → String
  | .undefined => "undefined"
  | .null => "null"
  | .scalar s => s.toJsString
  | .list xs => String.intercalate "," (xs.map Scalar.toJsString)

/-- JS truthiness of a scalar (`""`, `0` and `false` are falsy). -/
def Scalar.truthy : Scalar → Bool
  | .str s => !(s == "")
  | .num n => !(n == 0)
  | .bool b => b

/-- One character of the regex replace in `sanitizeTagValue`
(`part.replace(/[^a-zA-Z0-9_]/g, "_")`, `src/main.ts:43`). -/
def sanitizeChar (c : Char) : Char :=
  if ('a' ≤ c && c ≤ 'z') || ('A' ≤ c && c ≤ 'Z') || ('0' ≤ c && c ≤ '9') || c == '_' then c
  else '_'

/-- JS `String.prototype.split` with a single-character separator, at
character level: `"".split(sep) = [""]`, separators at either end
produce empty segments. -/
def jsSplit (sep : Char) : List Char → List (List Char)
  | [] => [[]]
  | c :: cs =>
    if c == sep then [] :: jsSplit sep cs
    else
      match jsSplit sep cs with
      | [] => [[c]]
      | s :: ss => (c :: s) :: ss

/-- JS `Array.prototype.join` with a single-character separator. -/
def jsJoin (sep : Char) (ps : List (List Char)) : List Char :=
  (ps.intersperse [sep]).flatten

/-- `sanitizeTagValue` on an already-converted string
(`src/main.ts:41`-`44`): split on `/`, replace non-word characters in
each segment with `_`, rejoin with `/`. -/
def sanitizeString (s : String) : String :=
  ⟨jsJoin '/' ((jsSplit '/' s.data).map (List.map sanitizeChar))⟩

/-- `sanitizeTagValue(value)` (`src/main.ts:37`): `String(value)` first,
then the split/replace/join. -/
def sanitizeTagValue (v : FieldValue) : String :=
  sanitizeString v.toJsString

/-- JS `String.prototype.startsWith`. -/
def jsStartsWith (s p : String) : Bool :=
  p.data.isPrefixOf s.data

/-- JS `String.prototype.endsWith`. -/
def jsEndsWith (s p : String) : Bool :=
  p.data.isSuffixOf s.data

/-- The code points JS `String.prototype.trim` strips (WhiteSpace and
LineTerminator productions). -/
def jsWhitespaceChar (c : Char) : Bool :=
  c.val == 0x09 || c.val == 0x0a || c.val == 0x0b || c.val == 0x0c || c.val == 0x0d ||
  c.val == 0x20 || c.val == 0xa0 || c.val == 0x1680 ||
  (0x2000 ≤ c.val && c.val ≤ 0x200a) ||
  c.val == 0x2028 || c.val == 0x2029 || c.val == 0x202f || c.val == 0x205f ||
  c.val == 0x3000 || c.val == 0xfeff

/-- JS `String.prototype.trim`. -/
def jsTrim (s : String) : String :=
  ⟨((s.data.dropWhile jsWhitespaceChar).reverse.dropWhile jsWhitespaceChar).reverse⟩

/-- `value.replace(/^\[\[|\]\]$/g, "")` (`src/main.ts:189`): with the `g`
flag and the `^`/`$` anchors this removes at most one leading `[[` and at
most one trailing `]]` (the `^` anchor only ever matches at position 0,
and the `]]$` match is the last two characters). -/
def stripBrackets (s : String) : String :=
  let s1 := if jsStartsWith s "[[" then (⟨s.data.drop 2⟩ : String) else s
  if jsEndsWith s1 "]]" then ⟨s1.data.take (s1.data.length - 2)⟩ else s1

/-- `extractName` applied to an actual string (`src/main.ts:187`-`195`);
`if (!value)` is string falsiness, i.e. `"" → ""`. -/
def extractNameStr (s : String) : String :=
  if s == "" then ""
  else
    let v := stripBrackets s
    -- const parts = value.split("/"); let lastPart = parts[parts.length - 1]
    let lastPart := (jsSplit '/' v.data).getLastD []
    -- lastPart = lastPart.split("|")[0]
    let beforeAlias := (jsSplit '|' lastPart).headD []
    -- lastPart = lastPart.replace(/\.md$/, "")
    let noExt :=
      if jsEndsWith ⟨beforeAlias⟩ ".md" then beforeAlias.take (beforeAlias.length - 3)
      else beforeAlias
    jsTrim ⟨noExt⟩

/-- A thrown JS runtime error.  The only one reachable inside the engine
is the `TypeError` raised by `value.replace` in `extractName` when the
field value is a truthy non-string. -/
inductive JsError where
  | typeError
deriving DecidableEq, Repr

/-- `extractName(value)` as the engine invokes it (`src/main.ts:187`,
`197`-`199`): falsy values short-circuit to `""`; a truthy non-string has
no `.replace` method and throws. -/
def extractName : FieldValue → Except JsError String
  | .undefined => .ok ""
  | .null => .ok ""
  | .scalar (.str s) => .ok (extractNameStr s)
  | .scalar v => if v.truthy then .error .typeError else .ok ""
  | .list _ => .error .typeError

/-- `interface ValueMapping` (`src/main.ts:11`). -/
structure ValueMapping where
  propertyValue : String
  tagValue : String
deriving DecidableEq, Repr

/-- The `syncType` union (`src/main.ts:18`); "value" is the enumerated
strategy, "wikilink" the reference strategy. -/
inductive SyncType where
  | value
  | wikilink
  | direct
deriving DecidableEq, Repr

/-- `interface PropertySyncConfig` (`src/main.ts:16`).  A missing
`lastSyncedValue` is JS `undefined`, which `FieldValue.undefined` represents
directly. -/
structure PropertySyncConfig where
  propertyName : String
  syncType : SyncType
  valueMappings : Option (List ValueMapping) := none
  tagPrefix : Option String := none
  lastSyncedValue : FieldValue := .undefined
deriving DecidableEq, Repr

/-- `interface FrontmatterSyncSettings` (`src/main.ts:24`). -/
structure FrontmatterSyncSettings where
  propertyConfigs : List PropertySyncConfig
  syncTags : List String
  ignoreTags : List String
deriving DecidableEq, Repr

/-- A parsed frontmatter object in the engine's declared domain: a list
of string tags plus a field map. -/
structure Frontmatter where
  tags : List String
  fields : List (String × FieldValue)
deriving DecidableEq, Repr

/-- `frontmatter[name]`: JS property lookup, `undefined` when absent. -/
def Frontmatter.get (fm : Frontmatter) (name : String) : FieldValue :=
  match fm.fields.find? (fun kv => kv.1 == name) with
  | some kv => kv.2
  | none => .undefined

/-- `Set.add`: append if not already present (JS sets iterate in
insertion order). -/
def insertTag (l : List String) (x : String) : List String :=
  if x ∈ l then l else l ++ [x]

/-- `new Set(array)`: keep the first occurrence of each element, in
order. -/
def setFromList (xs : List String) : List String :=
  xs.foldl insertTag []

/-- `src/main.ts:137`-`141`. -/
def hasIgnoredTag (settings : FrontmatterSyncSettings) (tags : List String) : Bool :=
  tags.any (fun t => settings.ignoreTags.any (fun ig => jsStartsWith t ig))

/-- `src/main.ts:147`-`149` (and the same check in `syncFrontmatter`,
`src/main.ts:103`-`105`). -/
def hasSyncTag (settings : FrontmatterSyncSettings) (tags : List String) : Bool :=
  tags.any (fun t => settings.syncTags.any (fun sy => jsStartsWith t sy))

/-- The retract phase of one rule (`src/main.ts:158`-`183`): which tags
are filtered out of the working set.
* wikilink: every tag starting with `config.tagPrefix || ""`;
* value: every tag equal to `sanitizeTagValue(mapping.tagValue)` for some
  configured mapping (`valueMappings === undefined` keeps everything,
  because `!undefined?.some(...)` is `true`);
* direct: the single tag `sanitizeTagValue(lastSyncedValue)` when
  `lastSyncedValue !== undefined`. -/
def applyRetract (cfg : PropertySyncConfig) (tags : List String) : List String :=
  match cfg.syncType with
  | .wikilink =>
      tags.filter (fun t => !(jsStartsWith t (cfg.tagPrefix.getD "")))
  | .value =>
      match cfg.valueMappings with
      | none => tags
      | some ms => tags.filter (fun t => !(ms.any (fun m => t == sanitizeString m.tagValue)))
  | .direct =>
      match cfg.lastSyncedValue with
      | .undefined => tags
      | v => tags.filter (fun t => !(t == sanitizeTagValue v))

/-- `propertyValue.map(extractName)` (`src/main.ts:198`): left-to-right,
the first throwing element aborts the map. -/
def extractAll : List Scalar → Except JsError (List String)
  | [] => .ok []
  | e :: es =>
      match extractName (.scalar e), extractAll es with
      | .ok n, .ok ns => .ok (n :: ns)
      | .error err, _ => .error err
      | .ok _, .error err => .error err

/-- The tags one rule's emit phase adds, in order (`src/main.ts:186`-`236`).
* wikilink: `extractName` per element, empty names filtered out
  (`filter(Boolean)`), then `tagPrefix || ""` prepended to the sanitized
  name; a truthy non-string value propagates the `TypeError`;
* value: first matching `(propertyValue, tagValue)` pair per element,
  matched with `===` (so only string elements can match), emitting the
  sanitized `tagValue`; skipped entirely when `valueMappings` is absent;
* direct: when the field value is not `null`/`undefined`/`""`, each
  element that is itself not `null`/`undefined`/`""` emits its sanitized
  string form. -/
def emitList (cfg : PropertySyncConfig) (pv : FieldValue) : Except JsError (List String) :=
  match cfg.syncType with
  | .wikilink =>
      let names : Except JsError (List String) :=
        match pv with
        | .list xs =>
            match extractAll xs with
            | .ok ns => .ok (ns.filter (fun n => !(n == "")))
            | .error err => .error err
        | v =>
            match extractName v with
            | .ok n => .ok (if n == "" then [] else [n])
            | .error err => .error err
      match names with
      | .ok ns => .ok (ns.map (fun n => cfg.tagPrefix.getD "" ++ sanitizeString n))
      | .error err => .error err
  | .value =>
      match cfg.valueMappings with
      | none => .ok []
      | some ms =>
          let vals : List FieldValue :=
            match pv with
            | .list xs => xs.map FieldValue.scalar
            | v => [v]
          .ok (vals.filterMap (fun v =>
            match ms.find? (fun m => v == FieldValue.scalar (.str m.propertyValue)) with
            | some m => some (sanitizeString m.tagValue)
            | none => none))
  | .direct =>
      let emittable :=
        match pv with
        | .undefined => false
        | .null => false
        | .scalar (.str s) => !(s == "")
        | _ => true
      if emittable then
        let vals : List FieldValue :=
          match pv with
          | .list xs => xs.map FieldValue.scalar
          | v => [v]
        .ok (vals.filterMap (fun v =>
          match v with
          | .undefined => none
          | .null => none
          | .scalar (.str "") => none
          | w => some (sanitizeTagValue w)))
      else .ok []

/-- The configuration as it stands after one loop iteration: the direct
strategy unconditionally stores the current field value in
`lastSyncedValue` (`src/main.ts:238`); other strategies never write. -/
def updCfg (fm : Frontmatter) (cfg : PropertySyncConfig) : PropertySyncConfig :=
  if cfg.syncType == SyncType.direct then
    { cfg with lastSyncedValue := fm.get cfg.propertyName }
  else cfg

/-- One iteration of the rule loop (`src/main.ts:155`-`240`): retract,
then emit, then (direct strategy only) unconditionally update
`lastSyncedValue` to the current field value. -/
def processConfig (fm : Frontmatter) (tags : List String) (cfg : PropertySyncConfig) :
    Except JsError (List String × PropertySyncConfig) :=
  match emitList cfg (fm.get cfg.propertyName) with
  | .ok es => .ok (es.foldl insertTag (applyRetract cfg tags), updCfg fm cfg)
  | .error err => .error err

/-- The whole rule loop, also returning the updated configuration list.
(In JS the `lastSyncedValue` mutations are in-place; returning the new
list models the same observable state for runs that do not throw.) -/
def processConfigs (fm : Frontmatter) (cfgs : List PropertySyncConfig) (tags : List String) :
    Except JsError (List String × List PropertySyncConfig) :=
  match cfgs with
  | [] => .ok (tags, [])
  | cfg :: rest =>
      match processConfig fm tags cfg with
      | .error err => .error err
      | .ok (tags1, cfg1) =>
          match processConfigs fm rest tags1 with
          | .error err => .error err
          | .ok (tags2, rest1) => .ok (tags2, cfg1 :: rest1)

/-- The comparator relation of `sort((a, b) => b.localeCompare(a))`:
`a` precedes (or ties) `b` exactly when the compare function is ≤ 0. -/
def sortRel (lc : String → String → Int) (a b : String) : Prop :=
  lc b a ≤ 0

instance (lc : String → String → Int) : DecidableRel (sortRel lc) :=
  fun a b => inferInstanceAs (Decidable (lc b a ≤ 0))

/-- `Array.from(tags).sort((a, b) => b.localeCompare(a))`
(`src/main.ts:243`): JS sort is stable and, for a consistent comparator,
its output is uniquely determined by sortedness + stability; stable
insertion sort with the non-strict comparator relation reproduces it. -/
def jsSortDesc (lc : String → String → Int) (l : List String) : List String :=
  List.insertionSort (sortRel lc) l

/-- `synchronizeProperties(frontmatter)` (`src/main.ts:133`-`245`),
with the ambient `this.settings` and the `localeCompare` host function
passed explicitly.  Returns the produced tag array together with the
settings as they stand after the call (`lastSyncedValue` updates). -/
def synchronizeProperties (lc : String → String → Int)
    (settings : FrontmatterSyncSettings) (fm : Frontmatter) :
    Except JsError (List String × FrontmatterSyncSettings) :=
  let tags := setFromList fm.tags
  if hasIgnoredTag settings tags then
    .ok (tags, settings)
  else if !(hasSyncTag settings tags) then
    .ok (tags, settings)
  else
    match processConfigs fm settings.propertyConfigs tags with
    | .error err => .error err
    | .ok (tags1, cfgs1) =>
        .ok (if tags1.length > 0 then jsSortDesc lc tags1 else [],
             { settings with propertyConfigs := cfgs1 })

/-- The pure decision core of `syncFrontmatter` (`src/main.ts:93`-`119`):
`none` means the file is left untouched; `some newTags` means
`processFrontMatter` runs `fm.tags = newTags` — the `tags` attribute is
assigned `newTags` (an assignment, never a deletion of the attribute). -/
def syncFrontmatter (lc : String → String → Int)
    (settings : FrontmatterSyncSettings) (fm : Frontmatter) :
    Except JsError (Option (List String)) :=
  if !(hasSyncTag settings fm.tags) then
    .ok none
  else
    match synchronizeProperties lc settings fm with
    | .error err => .error err
    | .ok (updated, _) =>
        .ok (if fm.tags == updated then none else some updated)

/-- A concrete consistent comparator (plain code-point order), used to
instantiate the `localeCompare` parameter on concrete inputs. -/
def cmpChars : List Char → List Char → Int
  | [], [] => 0
  | [], _ :: _ => -1
  | _ :: _, [] => 1
  | a :: as, b :: bs => if a < b then -1 else if b < a then 1 else cmpChars as bs

/-- Code-point comparator standing in for a host `localeCompare`. -/
def lcStd (a b : String) : Int :=
  cmpChars a.data b.data

/-! ### Basic facts about the JS-set model -/

theorem mem_insertTag {l : List String} {x a : String} :
    a ∈ insertTag l x ↔ a ∈ l ∨ a = x := by
  unfold insertTag
  by_cases h : x ∈ l
  · simp only [if_pos h]
    constructor
    · exact Or.inl
    · rintro (ha | rfl)
      · exact ha
      · exact h
  · simp [if_neg h]

theorem nodup_insertTag {l : List String} {x : String} (h : l.Nodup) :
    (insertTag l x).Nodup := by
  unfold insertTag
  by_cases hx : x ∈ l
  · simpa [if_pos hx] using h
  · simp only [if_neg hx]
    simpa [List.nodup_append, h] using hx

theorem mem_foldl_insertTag {es : List String} {l : List String} {a : String} :
    a ∈ es.foldl insertTag l ↔ a ∈ l ∨ a ∈ es := by
  induction es generalizing l with
  | nil => simp
  | cons e es ih =>
    rw [List.foldl_cons, ih]
    simp [mem_insertTag]
    tauto

theorem nodup_foldl_insertTag {es : List String} {l : List String} (h : l.Nodup) :
    (es.foldl insertTag l).Nodup := by
  induction es generalizing l with
  | nil => simpa
  | cons e es ih => exact ih (nodup_insertTag h)

theorem mem_setFromList {xs : List String} {a : String} :
    a ∈ setFromList xs ↔ a ∈ xs := by
  unfold setFromList
  rw [mem_foldl_insertTag]
  simp

theorem nodup_setFromList (xs : List String) : (setFromList xs).Nodup :=
  nodup_foldl_insertTag List.nodup_nil

theorem foldl_insertTag_eq_append {xs : List String} :
    ∀ {acc : List String}, (acc ++ xs).Nodup → xs.foldl insertTag acc = acc ++ xs := by
  induction xs with
  | nil => intro acc _; simp
  | cons x xs ih =>
    intro acc h
    have hx : x ∉ acc := by
      intro hmem
      exact (List.nodup_append.mp h).2.2 hmem (List.mem_cons_self x xs)
    rw [List.foldl_cons]
    have hit : insertTag acc x = acc ++ [x] := by unfold insertTag; rw [if_neg hx]
    rw [hit, ih (by simpa [List.append_assoc] using h)]
    simp

theorem setFromList_eq_self {xs : List String} (h : xs.Nodup) : setFromList xs = xs := by
  unfold setFromList
  simpa using @foldl_insertTag_eq_append xs [] (by simpa using h)

/-! ### The retract phase as a filter -/

/-- The retract predicate of one rule: whether the retract phase removes
tag `t` (the negation of each filter in `src/main.ts:158`-`183`). -/
def retracts (cfg : PropertySyncConfig) (t : String) : Bool :=
  match cfg.syncType with
  | .wikilink => jsStartsWith t (cfg.tagPrefix.getD "")
  | .value =>
      match cfg.valueMappings with
      | none => false
      | some ms => ms.any (fun m => t == sanitizeString m.tagValue)
  | .direct =>
      match cfg.lastSyncedValue with
      | .undefined => false
      | v => t == sanitizeTagValue v

theorem applyRetract_eq_filter (cfg : PropertySyncConfig) (tags : List String) :
    applyRetract cfg tags = tags.filter (fun t => !(retracts cfg t)) := by
  unfold applyRetract retracts
  cases cfg.syncType with
  | wikilink => rfl
  | value => cases cfg.valueMappings <;> simp
  | direct => cases cfg.lastSyncedValue <;> simp

theorem mem_applyRetract {cfg : PropertySyncConfig} {tags : List String} {t : String} :
    t ∈ applyRetract cfg tags ↔ t ∈ tags ∧ retracts cfg t = false := by
  rw [applyRetract_eq_filter]
  simp [List.mem_filter]

theorem nodup_applyRetract {cfg : PropertySyncConfig} {tags : List String}
    (h : tags.Nodup) : (applyRetract cfg tags).Nodup := by
  rw [applyRetract_eq_filter]
  exact h.filter _

/-! ### Membership through the rule loop -/

theorem mem_processConfig {fm : Frontmatter} {tags : List String}
    {cfg : PropertySyncConfig} {out : List String} {cfg1 : PropertySyncConfig}
    (h : processConfig fm tags cfg = .ok (out, cfg1)) (t : String) :
    t ∈ out ↔ (∃ es, emitList cfg (fm.get cfg.propertyName) = .ok es ∧ t ∈ es) ∨
      (t ∈ tags ∧ retracts cfg t = false) := by
  unfold processConfig at h
  cases hemit : emitList cfg (fm.get cfg.propertyName) with
  | error err => rw [hemit] at h; exact absurd h (by simp)
  | ok es =>
    rw [hemit] at h
    have hout : out = es.foldl insertTag (applyRetract cfg tags) := by
      cases h; rfl
    subst hout
    rw [mem_foldl_insertTag, mem_applyRetract]
    constructor
    · rintro (htags | hes)
      · exact Or.inr htags
      · exact Or.inl ⟨es, rfl, hes⟩
    · rintro (⟨es', hes', hmem⟩ | htags)
      · cases hes'
        exact Or.inr hmem
      · exact Or.inl htags

theorem nodup_processConfig {fm : Frontmatter} {tags : List String}
    {cfg : PropertySyncConfig} {out : List String} {cfg1 : PropertySyncConfig}
    (h : processConfig fm tags cfg = .ok (out, cfg1)) (hnd : tags.Nodup) :
    out.Nodup := by
  unfold processConfig at h
  cases hemit : emitList cfg (fm.get cfg.propertyName) with
  | error err => rw [hemit] at h; exact absurd h (by simp)
  | ok es =>
    rw [hemit] at h
    cases h
    exact nodup_foldl_insertTag (nodup_applyRetract hnd)

theorem processConfig_cfg {fm : Frontmatter} {tags : List String}
    {cfg : PropertySyncConfig} {out : List String} {cfg1 : PropertySyncConfig}
    (h : processConfig fm tags cfg = .ok (out, cfg1)) : cfg1 = updCfg fm cfg := by
  unfold processConfig at h
  cases hemit : emitList cfg (fm.get cfg.propertyName) with
  | error err => rw [hemit] at h; exact absurd h (by simp)
  | ok es => rw [hemit] at h; cases h; rfl

/-- `t` survives one whole pass of `cfgs`: each rule either (re-)emits it
or does not retract it. -/
def survivesAll (fm : Frontmatter) (t : String) : List PropertySyncConfig → Prop
  | [] => True
  | cfg :: rest =>
      ((∃ es, emitList cfg (fm.get cfg.propertyName) = .ok es ∧ t ∈ es) ∨
        retracts cfg t = false) ∧ survivesAll fm t rest

/-- `t` is emitted by some rule of `cfgs` and survives all later rules. -/
def emittedAlive (fm : Frontmatter) (t : String) : List PropertySyncConfig → Prop
  | [] => False
  | cfg :: rest =>
      ((∃ es, emitList cfg (fm.get cfg.propertyName) = .ok es ∧ t ∈ es) ∧
        survivesAll fm t rest) ∨ emittedAlive fm t rest

theorem survivesAll_cons {fm : Frontmatter} {t : String} {cfg : PropertySyncConfig}
    {rest : List PropertySyncConfig} :
    survivesAll fm t (cfg :: rest) ↔
      ((∃ es, emitList cfg (fm.get cfg.propertyName) = .ok es ∧ t ∈ es) ∨
        retracts cfg t = false) ∧ survivesAll fm t rest := Iff.rfl

theorem emittedAlive_cons {fm : Frontmatter} {t : String} {cfg : PropertySyncConfig}
    {rest : List PropertySyncConfig} :
    emittedAlive fm t (cfg :: rest) ↔
      ((∃ es, emitList cfg (fm.get cfg.propertyName) = .ok es ∧ t ∈ es) ∧
        survivesAll fm t rest) ∨ emittedAlive fm t rest := Iff.rfl

/-- The propositional shape of one retract-then-emit step feeding the
rest of the loop: `A` = emitted-and-alive in the rest, `B` = initially
present, `E` = emitted by this rule, `R` = not retracted by this rule,
`S` = survives the rest. -/
theorem reconcileStepIff {A B E R S : Prop} :
    A ∨ (E ∨ B ∧ R) ∧ S ↔ (E ∧ S ∨ A) ∨ B ∧ (E ∨ R) ∧ S := by
  tauto

/-- Membership in the working set after a whole pass of the rule loop:
a tag is present iff some rule emitted it and all later rules kept it, or
it was present initially and every rule kept it. -/
theorem mem_processConfigs {fm : Frontmatter} {cfgs : List PropertySyncConfig}
    {tags out : List String} {cfgs1 : List PropertySyncConfig}
    (h : processConfigs fm cfgs tags = .ok (out, cfgs1)) (t : String) :
    t ∈ out ↔ emittedAlive fm t cfgs ∨ (t ∈ tags ∧ survivesAll fm t cfgs) := by
  induction cfgs generalizing tags out cfgs1 with
  | nil =>
    unfold processConfigs at h
    cases h
    simp [emittedAlive, survivesAll]
  | cons cfg rest ih =>
    unfold processConfigs at h
    split at h
    · exact absurd h (by simp)
    · rename_i pr tags1 cfg1 hstep
      split at h
      · exact absurd h (by simp)
      · rename_i pr2 tags2 rest1 hrest
        cases h
        rw [ih hrest, mem_processConfig hstep t, emittedAlive_cons, survivesAll_cons]
        exact reconcileStepIff

theorem nodup_processConfigs {fm : Frontmatter} {cfgs : List PropertySyncConfig}
    {tags out : List String} {cfgs1 : List PropertySyncConfig}
    (h : processConfigs fm cfgs tags = .ok (out, cfgs1)) (hnd : tags.Nodup) :
    out.Nodup := by
  induction cfgs generalizing tags out cfgs1 with
  | nil => unfold processConfigs at h; cases h; exact hnd
  | cons cfg rest ih =>
    unfold processConfigs at h
    split at h
    · exact absurd h (by simp)
    · rename_i pr tags1 cfg1 hstep
      split at h
      · exact absurd h (by simp)
      · rename_i pr2 tags2 rest1 hrest
        cases h
        exact ih hrest (nodup_processConfig hstep hnd)

/-- The configuration list after one pass does not depend on the working
set: each entry becomes `updCfg`. -/
theorem processConfigs_cfgs {fm : Frontmatter} {cfgs : List PropertySyncConfig}
    {tags out : List String} {cfgs1 : List PropertySyncConfig}
    (h : processConfigs fm cfgs tags = .ok (out, cfgs1)) :
    cfgs1 = cfgs.map (updCfg fm) := by
  induction cfgs generalizing tags out cfgs1 with
  | nil => unfold processConfigs at h; cases h; rfl
  | cons cfg rest ih =>
    unfold processConfigs at h
    split at h
    · exact absurd h (by simp)
    · rename_i pr tags1 cfg1 hstep
      split at h
      · exact absurd h (by simp)
      · rename_i pr2 tags2 rest1 hrest
        cases h
        rw [List.map_cons, ← processConfig_cfg hstep, ih hrest]

/-- Whether the pass throws does not depend on the working set (only
`emitList` can throw, and it never reads the working set). -/
theorem processConfigs_ok_any {fm : Frontmatter} {cfgs : List PropertySyncConfig}
    {tags out : List String} {cfgs1 : List PropertySyncConfig}
    (h : processConfigs fm cfgs tags = .ok (out, cfgs1)) (tags2 : List String) :
    ∃ out2, processConfigs fm cfgs tags2 = .ok (out2, cfgs1) := by
  induction cfgs generalizing tags tags2 out cfgs1 with
  | nil =>
    unfold processConfigs at h
    cases h
    exact ⟨tags2, rfl⟩
  | cons cfg rest ih =>
    unfold processConfigs at h
    split at h
    · exact absurd h (by simp)
    · rename_i pr tags1 cfg1 hstep
      split at h
      · exact absurd h (by simp)
      · rename_i pr2 tagsB restB hrest
        cases h
        have hemit : ∃ es, emitList cfg (fm.get cfg.propertyName) = .ok es := by
          unfold processConfig at hstep
          split at hstep
          · rename_i es hes
            exact ⟨es, hes⟩
          · exact absurd hstep (by simp)
        obtain ⟨es, hes⟩ := hemit
        have hstep2 : processConfig fm tags2 cfg =
            .ok (es.foldl insertTag (applyRetract cfg tags2), updCfg fm cfg) := by
          unfold processConfig
          rw [hes]
        have hcfg1 : cfg1 = updCfg fm cfg := processConfig_cfg hstep
        obtain ⟨out2, hout2⟩ := ih hrest (es.foldl insertTag (applyRetract cfg tags2))
        refine ⟨out2, ?_⟩
        unfold processConfigs
        simp only [hstep2, hout2, hcfg1]

/-! ### Settled direct rules -/

/-- A rule is settled w.r.t. a document: if it is a direct rule, its
remembered `lastSyncedValue` already equals the field's current value
(the spec's "once lastEmittedValue has settled"). -/
def settledCfg (fm : Frontmatter) (cfg : PropertySyncConfig) : Prop :=
  cfg.syncType = .direct → cfg.lastSyncedValue = fm.get cfg.propertyName

theorem updCfg_eq_self {fm : Frontmatter} {cfg : PropertySyncConfig}
    (h : settledCfg fm cfg) : updCfg fm cfg = cfg := by
  unfold updCfg
  by_cases hd : cfg.syncType == SyncType.direct
  · rw [if_pos hd, ← h (by simpa using hd)]
  · rw [if_neg hd]

theorem map_updCfg_eq_self {fm : Frontmatter} {cfgs : List PropertySyncConfig}
    (h : ∀ cfg ∈ cfgs, settledCfg fm cfg) : cfgs.map (updCfg fm) = cfgs := by
  induction cfgs with
  | nil => rfl
  | cons cfg rest ih =>
    rw [List.map_cons, updCfg_eq_self (h cfg (by simp)),
      ih (fun c hc => h c (by simp [hc]))]

/-! ### The output sort -/

theorem jsSortDesc_perm (lc : String → String → Int) (l : List String) :
    List.Perm (jsSortDesc lc l) l :=
  List.perm_insertionSort _ l

theorem mem_jsSortDesc {lc : String → String → Int} {l : List String} {a : String} :
    a ∈ jsSortDesc lc l ↔ a ∈ l :=
  (jsSortDesc_perm lc l).mem_iff

theorem nodup_jsSortDesc {lc : String → String → Int} {l : List String}
    (h : l.Nodup) : (jsSortDesc lc l).Nodup :=
  ((jsSortDesc_perm lc l).nodup_iff).mpr h

theorem sorted_jsSortDesc (lc : String → String → Int)
    (htot : ∀ a b, lc a b ≤ 0 ∨ lc b a ≤ 0)
    (htrans : ∀ a b c, lc b a ≤ 0 → lc c b ≤ 0 → lc c a ≤ 0) (l : List String) :
    List.Sorted (sortRel lc) (jsSortDesc lc l) := by
  letI : IsTotal String (sortRel lc) := ⟨fun a b => htot b a⟩
  letI : IsTrans String (sortRel lc) := ⟨fun a b c => htrans a b c⟩
  exact List.sorted_insertionSort (sortRel lc) l

/-- For a comparator that is a linear order, the sorted output of two
duplicate-free lists with the same members is the same sequence. -/
theorem jsSortDesc_congr_perm (lc : String → String → Int)
    (htot : ∀ a b, lc a b ≤ 0 ∨ lc b a ≤ 0)
    (htrans : ∀ a b c, lc b a ≤ 0 → lc c b ≤ 0 → lc c a ≤ 0)
    (hanti : ∀ a b, lc a b ≤ 0 → lc b a ≤ 0 → a = b)
    {l1 l2 : List String} (hp : List.Perm l1 l2) :
    jsSortDesc lc l1 = jsSortDesc lc l2 := by
  letI : IsTotal String (sortRel lc) := ⟨fun a b => htot b a⟩
  letI : IsTrans String (sortRel lc) := ⟨fun a b c => htrans a b c⟩
  letI : IsAntisymm String (sortRel lc) := ⟨fun a b h1 h2 => (hanti b a h1 h2).symm⟩
  exact List.eq_of_perm_of_sorted
    (((jsSortDesc_perm lc l1).trans hp).trans (jsSortDesc_perm lc l2).symm)
    (sorted_jsSortDesc lc htot htrans l1) (sorted_jsSortDesc lc htot htrans l2)

/-! ### Gates depend only on membership -/

theorem any_congr_mem {p : String → Bool} {tags1 tags2 : List String}
    (h : ∀ t, t ∈ tags1 ↔ t ∈ tags2) : tags1.any p = tags2.any p := by
  rw [Bool.eq_iff_iff]
  simp only [List.any_eq_true]
  exact ⟨fun ⟨t, ht, hp⟩ => ⟨t, (h t).mp ht, hp⟩, fun ⟨t, ht, hp⟩ => ⟨t, (h t).mpr ht, hp⟩⟩

theorem hasIgnoredTag_congr {settings : FrontmatterSyncSettings}
    {tags1 tags2 : List String} (h : ∀ t, t ∈ tags1 ↔ t ∈ tags2) :
    hasIgnoredTag settings tags1 = hasIgnoredTag settings tags2 :=
  any_congr_mem h

theorem hasSyncTag_congr {settings : FrontmatterSyncSettings}
    {tags1 tags2 : List String} (h : ∀ t, t ∈ tags1 ↔ t ∈ tags2) :
    hasSyncTag settings tags1 = hasSyncTag settings tags2 :=
  any_congr_mem h

/-! ### Unfolding the engine's three paths -/

theorem synchronizeProperties_blocked {lc : String → String → Int}
    {settings : FrontmatterSyncSettings} {fm : Frontmatter}
    (h : hasIgnoredTag settings (setFromList fm.tags) = true) :
    synchronizeProperties lc settings fm = .ok (setFromList fm.tags, settings) := by
  simp [synchronizeProperties, h]

theorem synchronizeProperties_noSync {lc : String → String → Int}
    {settings : FrontmatterSyncSettings} {fm : Frontmatter}
    (h1 : hasIgnoredTag settings (setFromList fm.tags) = false)
    (h2 : hasSyncTag settings (setFromList fm.tags) = false) :
    synchronizeProperties lc settings fm = .ok (setFromList fm.tags, settings) := by
  simp [synchronizeProperties, h1, h2]

theorem synchronizeProperties_run {lc : String → String → Int}
    {settings : FrontmatterSyncSettings} {fm : Frontmatter}
    {tags1 : List String} {cfgs1 : List PropertySyncConfig}
    (h1 : hasIgnoredTag settings (setFromList fm.tags) = false)
    (h2 : hasSyncTag settings (setFromList fm.tags) = true)
    (hp : processConfigs fm settings.propertyConfigs (setFromList fm.tags) =
      .ok (tags1, cfgs1)) :
    synchronizeProperties lc settings fm =
      .ok (if tags1.length > 0 then jsSortDesc lc tags1 else [],
           { settings with propertyConfigs := cfgs1 }) := by
  simp [synchronizeProperties, h1, h2, hp]

/-- The rule loop never reads the document's tag attribute, only its
fields. -/
theorem processConfigs_set_tags (fm : Frontmatter) (ts : List String)
    (cfgs : List PropertySyncConfig) (tags : List String) :
    processConfigs { fm with tags := ts } cfgs tags = processConfigs fm cfgs tags := by
  induction cfgs generalizing tags with
  | nil => rfl
  | cons cfg rest ih =>
    unfold processConfigs
    have hpc : processConfig { fm with tags := ts } tags cfg = processConfig fm tags cfg := rfl
    rw [hpc]
    cases processConfig fm tags cfg with
    | error err => rfl
    | ok pr =>
      obtain ⟨t1, c1⟩ := pr
      simp only [ih]

/-- Absorption: a second identical pass adds nothing on top of a first. -/
theorem idempotentAbsorb {A B b : Prop} : A ∨ (A ∨ b ∧ B) ∧ B ↔ A ∨ b ∧ B := by
  tauto

/-- Claim C1 (amended): with the rules settled — every direct rule's
`lastSyncedValue` already equal to its field's current metadata value —
and a comparator that is a linear order, running
`synchronizeProperties` again on the tag sequence produced by a first
run (metadata, rules and gating unchanged) returns exactly the first
run's tag sequence and leaves the settings unchanged. -/
theorem c1_reconcile_idempotent_settled (lc : String → String → Int)
    (settings : FrontmatterSyncSettings) (fm : Frontmatter)
    (out1 : List String) (settings1 : FrontmatterSyncSettings)
    (htot : ∀ a b, lc a b ≤ 0 ∨ lc b a ≤ 0)
    (htrans : ∀ a b c, lc b a ≤ 0 → lc c b ≤ 0 → lc c a ≤ 0)
    (hanti : ∀ a b, lc a b ≤ 0 → lc b a ≤ 0 → a = b)
    (hsettled : ∀ cfg ∈ settings.propertyConfigs, settledCfg fm cfg)
    (hrun1 : synchronizeProperties lc settings fm = .ok (out1, settings1)) :
    settings1 = settings ∧
      synchronizeProperties lc settings1 { fm with tags := out1 } =
        .ok (out1, settings1) := by
  by_cases hig : hasIgnoredTag settings (setFromList fm.tags) = true
  · -- run 1 blocked by an ignore tag: the tag sequence is only deduplicated
    rw [synchronizeProperties_blocked hig] at hrun1
    simp only [Except.ok.injEq, Prod.mk.injEq] at hrun1
    obtain ⟨hout, hset⟩ := hrun1
    subst hout
    refine ⟨hset.symm, ?_⟩
    rw [← hset]
    have hsf : setFromList (setFromList fm.tags) = setFromList fm.tags :=
      setFromList_eq_self (nodup_setFromList fm.tags)
    have hig2 : hasIgnoredTag settings
        (setFromList ({ fm with tags := setFromList fm.tags } : Frontmatter).tags) = true := by
      show hasIgnoredTag settings (setFromList (setFromList fm.tags)) = true
      rw [hsf]
      exact hig
    rw [synchronizeProperties_blocked hig2]
    show Except.ok (setFromList (setFromList fm.tags), settings) = _
    rw [hsf]
  · have hig' : hasIgnoredTag settings (setFromList fm.tags) = false := by
      simpa using hig
    by_cases hsy : hasSyncTag settings (setFromList fm.tags) = true
    · -- run 1 proceeds into the rule loop
      cases hp : processConfigs fm settings.propertyConfigs (setFromList fm.tags) with
      | error err =>
        have : synchronizeProperties lc settings fm = .error err := by
          simp [synchronizeProperties, hig', hsy, hp]
        rw [this] at hrun1
        exact absurd hrun1 (by simp)
      | ok pr =>
        obtain ⟨tags1, cfgs1⟩ := pr
        rw [synchronizeProperties_run hig' hsy hp] at hrun1
        simp only [Except.ok.injEq, Prod.mk.injEq] at hrun1
        obtain ⟨hout1, hsets⟩ := hrun1
        have hcfgs : cfgs1 = settings.propertyConfigs := by
          rw [processConfigs_cfgs hp, map_updCfg_eq_self hsettled]
        have hsets1 : settings1 = settings := by
          rw [← hsets, hcfgs]
        refine ⟨hsets1, ?_⟩
        rw [hsets1]
        by_cases hlen : tags1.length > 0
        · -- non-empty result: run 2 sees the sorted sequence
          have hout : out1 = jsSortDesc lc tags1 := by
            rw [← hout1, if_pos hlen]
          have hnd1 : tags1.Nodup := nodup_processConfigs hp (nodup_setFromList fm.tags)
          have hndo : out1.Nodup := by rw [hout]; exact nodup_jsSortDesc hnd1
          have hmem_out1 : ∀ t, t ∈ out1 ↔ t ∈ tags1 := by
            intro t; rw [hout]; exact mem_jsSortDesc
          have hsfo : setFromList out1 = out1 := setFromList_eq_self hndo
          have hfm2tags : setFromList ({ fm with tags := out1 } : Frontmatter).tags = out1 := hsfo
          by_cases hig2 : hasIgnoredTag settings
              (setFromList ({ fm with tags := out1 } : Frontmatter).tags) = true
          · rw [synchronizeProperties_blocked hig2, hfm2tags]
          · have hig2' : hasIgnoredTag settings
                (setFromList ({ fm with tags := out1 } : Frontmatter).tags) = false := by
              simpa using hig2
            by_cases hsy2 : hasSyncTag settings
                (setFromList ({ fm with tags := out1 } : Frontmatter).tags) = true
            · -- run 2 also proceeds into the rule loop
              obtain ⟨T2, hT2⟩ := processConfigs_ok_any hp out1
              have hT2' : processConfigs { fm with tags := out1 }
                  settings.propertyConfigs
                  (setFromList ({ fm with tags := out1 } : Frontmatter).tags) =
                  .ok (T2, cfgs1) := by
                rw [hfm2tags, processConfigs_set_tags]
                exact hT2
              rw [synchronizeProperties_run hig2' hsy2 hT2']
              have hmemT2 : ∀ t, t ∈ T2 ↔ t ∈ tags1 := by
                intro t
                rw [mem_processConfigs hT2 t, hmem_out1 t, mem_processConfigs hp t,
                  idempotentAbsorb, ← mem_processConfigs hp t]
              have hndT2 : T2.Nodup := nodup_processConfigs hT2 hndo
              have hperm : List.Perm T2 tags1 :=
                (List.perm_ext_iff_of_nodup hndT2 hnd1).mpr hmemT2
              have hlen2 : T2.length > 0 := by rw [hperm.length_eq]; exact hlen
              rw [if_pos hlen2, jsSortDesc_congr_perm lc htot htrans hanti hperm, ← hout,
                hcfgs]
            · rw [synchronizeProperties_noSync hig2' (by simpa using hsy2), hfm2tags]
        · -- empty result: run 2 starts from no tags and is a no-op
          have htags1 : tags1 = [] := List.length_eq_zero.mp (by omega)
          subst htags1
          have hout : out1 = [] := by rw [← hout1]; simp
          subst hout
          exact synchronizeProperties_noSync (by rfl) (by rfl)
    · -- run 1 returned unchanged for lack of a sync tag
      have hsy' : hasSyncTag settings (setFromList fm.tags) = false := by
        simpa using hsy
      rw [synchronizeProperties_noSync hig' hsy'] at hrun1
      simp only [Except.ok.injEq, Prod.mk.injEq] at hrun1
      obtain ⟨hout, hset⟩ := hrun1
      subst hout
      refine ⟨hset.symm, ?_⟩
      rw [← hset]
      have hsf : setFromList (setFromList fm.tags) = setFromList fm.tags :=
        setFromList_eq_self (nodup_setFromList fm.tags)
      have hig2 : hasIgnoredTag settings
          (setFromList ({ fm with tags := setFromList fm.tags } : Frontmatter).tags) = false := by
        show hasIgnoredTag settings (setFromList (setFromList fm.tags)) = false
        rw [hsf]
        exact hig'
      have hsy2 : hasSyncTag settings
          (setFromList ({ fm with tags := setFromList fm.tags } : Frontmatter).tags) = false := by
        show hasSyncTag settings (setFromList (setFromList fm.tags)) = false
        rw [hsf]
        exact hsy'
      rw [synchronizeProperties_noSync hig2 hsy2]
      show Except.ok (setFromList (setFromList fm.tags), settings) = _
      rw [hsf]

/-! ### `lcStd` is a consistent (linear) comparator -/

theorem cmpChars_neg : ∀ a b : List Char, cmpChars a b = -cmpChars b a
  | [], [] => by simp [cmpChars]
  | [], _ :: _ => by simp [cmpChars]
  | _ :: _, [] => by simp [cmpChars]
  | a :: as, b :: bs => by
    simp only [cmpChars]
    rcases lt_trichotomy a b with h | h | h
    · simp [h, lt_asymm h]
    · subst h
      simp only [lt_irrefl, if_false]
      exact cmpChars_neg as bs
    · simp [h, lt_asymm h]

theorem cmpChars_eq_zero : ∀ {a b : List Char}, cmpChars a b = 0 → a = b
  | [], [], _ => rfl
  | [], _ :: _, h => by simp [cmpChars] at h
  | _ :: _, [], h => by simp [cmpChars] at h
  | a :: as, b :: bs, h => by
    simp only [cmpChars] at h
    rcases lt_trichotomy a b with hlt | heq | hgt
    · simp [hlt] at h
    · subst heq
      simp only [lt_irrefl, if_false] at h
      rw [cmpChars_eq_zero h]
    · simp [hgt, lt_asymm hgt] at h

theorem cmpChars_cons_le {a b : Char} {as bs : List Char} :
    cmpChars (a :: as) (b :: bs) ≤ 0 ↔ a < b ∨ (a = b ∧ cmpChars as bs ≤ 0) := by
  simp only [cmpChars]
  rcases lt_trichotomy a b with hlt | heq | hgt
  · simp [hlt]
  · subst heq
    simp [lt_irrefl]
  · simp [hgt, lt_asymm hgt, (ne_of_lt hgt).symm]

theorem cmpChars_le_trans :
    ∀ a b c : List Char, cmpChars a b ≤ 0 → cmpChars b c ≤ 0 → cmpChars a c ≤ 0
  | [], _, [] => by intro _ _; simp [cmpChars]
  | [], _, _ :: _ => by intro _ _; simp [cmpChars]
  | _ :: _, [], _ => by intro h _; simp [cmpChars] at h
  | _ :: _, _ :: _, [] => by intro _ h; simp [cmpChars] at h
  | a :: as, b :: bs, c :: cs => by
    intro h1 h2
    rw [cmpChars_cons_le] at h1 h2 ⊢
    rcases h1 with h1 | ⟨rfl, h1⟩
    · rcases h2 with h2 | ⟨rfl, h2⟩
      · exact Or.inl (lt_trans h1 h2)
      · exact Or.inl h1
    · rcases h2 with h2 | ⟨rfl, h2⟩
      · exact Or.inl h2
      · exact Or.inr ⟨rfl, cmpChars_le_trans as bs cs h1 h2⟩

theorem lcStd_total : ∀ a b : String, lcStd a b ≤ 0 ∨ lcStd b a ≤ 0 := by
  intro a b
  unfold lcStd
  rw [cmpChars_neg]
  omega

theorem lcStd_sort_trans :
    ∀ a b c : String, lcStd b a ≤ 0 → lcStd c b ≤ 0 → lcStd c a ≤ 0 := by
  intro a b c h1 h2
  exact cmpChars_le_trans c.data b.data a.data h2 h1

theorem lcStd_antisymm : ∀ a b : String, lcStd a b ≤ 0 → lcStd b a ≤ 0 → a = b := by
  intro a b h1 h2
  unfold lcStd at h1 h2
  have hneg := cmpChars_neg a.data b.data
  have hz : cmpChars a.data b.data = 0 := by omega
  exact congrArg String.mk (cmpChars_eq_zero hz)

/-- Claim C1, counterexample: the claim as stated fails.  With the single
direct rule on field `"p"` (initially unset `lastSyncedValue`), sync tag
prefix `""`, metadata `p = ""` and current tags `[""]`, the first run
proceeds, emits nothing (empty string is not emittable), returns `[""]`
and sets `lastSyncedValue := ""`; the second run on that same tag
sequence now retracts `sanitizeTagValue("") = ""` and returns `[]`, a
different tag sequence. -/
theorem c1_counterexample :
    synchronizeProperties lcStd
        ⟨[⟨"p", SyncType.direct, none, none, FieldValue.undefined⟩], [""], []⟩
        ⟨[""], [("p", FieldValue.scalar (Scalar.str ""))]⟩ =
      .ok ([""],
        ⟨[⟨"p", SyncType.direct, none, none, FieldValue.scalar (Scalar.str "")⟩],
         [""], []⟩) ∧
    synchronizeProperties lcStd
        ⟨[⟨"p", SyncType.direct, none, none, FieldValue.scalar (Scalar.str "")⟩],
         [""], []⟩
        ⟨[""], [("p", FieldValue.scalar (Scalar.str ""))]⟩ =
      .ok ([],
        ⟨[⟨"p", SyncType.direct, none, none, FieldValue.scalar (Scalar.str "")⟩],
         [""], []⟩) ∧
    ([] : List String) ≠ [""] := by
  refine ⟨rfl, rfl, ?_⟩
  simp

/-- Claim C1, witness: the amended idempotence theorem applied at a
concrete settled input (direct rule on `"p"`, `lastSyncedValue = "v"`,
metadata `p = "v"`, tags `["x"]`, sync prefix `"x"`). -/
theorem c1_witness :
    (∀ cfg ∈ ([⟨"p", SyncType.direct, none, none,
        FieldValue.scalar (Scalar.str "v")⟩] : List PropertySyncConfig),
      settledCfg ⟨["x"], [("p", FieldValue.scalar (Scalar.str "v"))]⟩ cfg) ∧
    synchronizeProperties lcStd
        ⟨[⟨"p", SyncType.direct, none, none, FieldValue.scalar (Scalar.str "v")⟩],
         ["x"], []⟩
        ⟨["x"], [("p", FieldValue.scalar (Scalar.str "v"))]⟩ =
      .ok (["x", "v"],
        ⟨[⟨"p", SyncType.direct, none, none, FieldValue.scalar (Scalar.str "v")⟩],
         ["x"], []⟩) ∧
    (⟨[⟨"p", SyncType.direct, none, none, FieldValue.scalar (Scalar.str "v")⟩],
        ["x"], []⟩ : FrontmatterSyncSettings) =
      ⟨[⟨"p", SyncType.direct, none, none, FieldValue.scalar (Scalar.str "v")⟩],
       ["x"], []⟩ ∧
    synchronizeProperties lcStd
        ⟨[⟨"p", SyncType.direct, none, none, FieldValue.scalar (Scalar.str "v")⟩],
         ["x"], []⟩
        ⟨["x", "v"], [("p", FieldValue.scalar (Scalar.str "v"))]⟩ =
      .ok (["x", "v"],
        ⟨[⟨"p", SyncType.direct, none, none, FieldValue.scalar (Scalar.str "v")⟩],
         ["x"], []⟩) := by
  refine ⟨?_, rfl, ?_, ?_⟩
  · intro cfg hc
    rcases List.mem_singleton.mp hc with rfl
    intro _
    rfl
  · exact (c1_reconcile_idempotent_settled lcStd
      ⟨[⟨"p", SyncType.direct, none, none, FieldValue.scalar (Scalar.str "v")⟩],
       ["x"], []⟩
      ⟨["x"], [("p", FieldValue.scalar (Scalar.str "v"))]⟩
      ["x", "v"] _
      lcStd_total lcStd_sort_trans lcStd_antisymm
      (by
        intro cfg hc
        rcases List.mem_singleton.mp hc with rfl
        intro _
        rfl)
      rfl).1
  · exact (c1_reconcile_idempotent_settled lcStd
      ⟨[⟨"p", SyncType.direct, none, none, FieldValue.scalar (Scalar.str "v")⟩],
       ["x"], []⟩
      ⟨["x"], [("p", FieldValue.scalar (Scalar.str "v"))]⟩
      ["x", "v"] _
      lcStd_total lcStd_sort_trans lcStd_antisymm
      (by
        intro cfg hc
        rcases List.mem_singleton.mp hc with rfl
        intro _
        rfl)
      rfl).2

/-- Claim C5: block-gating precedence and atomic no-op.  Whenever some
current tag starts with some `ignoreTags` prefix, the engine returns the
tag set unchanged (as a set: the emitted sequence is the deduplicated
input, with the same members) and performs no rule effects at all — the
settings, including every direct rule's `lastSyncedValue`, are returned
untouched — even when a `syncTags` prefix also matches. -/
theorem c5_block_gating (lc : String → String → Int)
    (settings : FrontmatterSyncSettings) (fm : Frontmatter)
    (h : ∃ t ∈ fm.tags, ∃ ig ∈ settings.ignoreTags, jsStartsWith t ig = true) :
    synchronizeProperties lc settings fm = .ok (setFromList fm.tags, settings) ∧
      (∀ t, t ∈ setFromList fm.tags ↔ t ∈ fm.tags) := by
  have hig : hasIgnoredTag settings (setFromList fm.tags) = true := by
    obtain ⟨t, ht, ig, higm, hsw⟩ := h
    unfold hasIgnoredTag
    rw [List.any_eq_true]
    refine ⟨t, mem_setFromList.mpr ht, ?_⟩
    rw [List.any_eq_true]
    exact ⟨ig, higm, hsw⟩
  exact ⟨synchronizeProperties_blocked hig, fun t => mem_setFromList⟩

/-- Claim C5, witness: a document carrying both a blocking tag
(`"private/x"` matches ignore prefix `"private"`) and a sync tag
(`"src"` matches sync prefix `"src"`); the direct rule's field holds a
value, yet nothing changes and `lastSyncedValue` stays unset. -/
theorem c5_witness :
    (∃ t ∈ ["src", "private/x", "src"], ∃ ig ∈ ["private"], jsStartsWith t ig = true) ∧
    synchronizeProperties lcStd
        ⟨[⟨"priority", SyncType.direct, none, none, FieldValue.undefined⟩],
         ["src"], ["private"]⟩
        ⟨["src", "private/x", "src"], [("priority", FieldValue.scalar (Scalar.str "urgent"))]⟩ =
      .ok (setFromList ["src", "private/x", "src"],
        ⟨[⟨"priority", SyncType.direct, none, none, FieldValue.undefined⟩],
         ["src"], ["private"]⟩) ∧
    (∀ t, t ∈ setFromList ["src", "private/x", "src"] ↔ t ∈ ["src", "private/x", "src"]) := by
  refine ⟨by decide, ?_, ?_⟩
  · exact (c5_block_gating lcStd
      ⟨[⟨"priority", SyncType.direct, none, none, FieldValue.undefined⟩],
       ["src"], ["private"]⟩
      ⟨["src", "private/x", "src"], [("priority", FieldValue.scalar (Scalar.str "urgent"))]⟩
      (by decide)).1
  · exact (c5_block_gating lcStd
      ⟨[⟨"priority", SyncType.direct, none, none, FieldValue.undefined⟩],
       ["src"], ["private"]⟩
      ⟨["src", "private/x", "src"], [("priority", FieldValue.scalar (Scalar.str "urgent"))]⟩
      (by decide)).2

/-- Claim C3, counterexample: with the enumerated rule
`status: done → state/complete, wip → state/active`, sync prefix
`"state"`, metadata `status = "done"` and current tags `[]`, the engine
returns `[]`, not `["state/complete"]`: an empty tag set can never
contain a tag matching a sync prefix, so synchronization does not run.
(The same happens for every gating configuration.) -/
theorem c3_counterexample :
    synchronizeProperties lcStd
        ⟨[⟨"status", SyncType.value,
           some [⟨"done", "state/complete"⟩, ⟨"wip", "state/active"⟩], none,
           FieldValue.undefined⟩], ["state"], []⟩
        ⟨[], [("status", FieldValue.scalar (Scalar.str "done"))]⟩ =
      .ok ([],
        ⟨[⟨"status", SyncType.value,
           some [⟨"done", "state/complete"⟩, ⟨"wip", "state/active"⟩], none,
           FieldValue.undefined⟩], ["state"], []⟩) ∧
    ([] : List String) ≠ ["state/complete"] := by
  refine ⟨rfl, ?_⟩
  simp

/-- Claim C3 (amended): with the enumerated rule
`status: done → state/complete, wip → state/active`:
(1) a call with current tags `[]` returns `[]` unchanged for every
gating configuration (the sync gate cannot match an empty tag set), and
(2) when a sync-matching tag is present — sync prefix `"state"`,
current tags `["state/complete"]` — metadata `status = "wip"` yields
`["state/active"]`: the old tag is retracted and the new one added.
Both hold for every comparator. -/
theorem c3_enumerated_roundtrip (lc : String → String → Int) :
    (∀ sy ig : List String,
      synchronizeProperties lc
          ⟨[⟨"status", SyncType.value,
             some [⟨"done", "state/complete"⟩, ⟨"wip", "state/active"⟩], none,
             FieldValue.undefined⟩], sy, ig⟩
          ⟨[], [("status", FieldValue.scalar (Scalar.str "done"))]⟩ =
        .ok ([],
          ⟨[⟨"status", SyncType.value,
             some [⟨"done", "state/complete"⟩, ⟨"wip", "state/active"⟩], none,
             FieldValue.undefined⟩], sy, ig⟩)) ∧
    synchronizeProperties lc
        ⟨[⟨"status", SyncType.value,
           some [⟨"done", "state/complete"⟩, ⟨"wip", "state/active"⟩], none,
           FieldValue.undefined⟩], ["state"], []⟩
        ⟨["state/complete"], [("status", FieldValue.scalar (Scalar.str "wip"))]⟩ =
      .ok (["state/active"],
        ⟨[⟨"status", SyncType.value,
           some [⟨"done", "state/complete"⟩, ⟨"wip", "state/active"⟩], none,
           FieldValue.undefined⟩], ["state"], []⟩) := by
  exact ⟨fun sy ig => rfl, rfl⟩

/-- Claim C4, counterexample: with the direct rule on `"priority"`
(`lastSyncedValue` unset), sync prefix `"src"`, metadata
`priority = "urgent"` and empty current tags, the engine returns `[]`
(not `["urgent"]`) and leaves `lastSyncedValue` unset: the sync gate
cannot match an empty tag set, so the rule never runs. -/
theorem c4_counterexample :
    synchronizeProperties lcStd
        ⟨[⟨"priority", SyncType.direct, none, none, FieldValue.undefined⟩], ["src"], []⟩
        ⟨[], [("priority", FieldValue.scalar (Scalar.str "urgent"))]⟩ =
      .ok ([],
        ⟨[⟨"priority", SyncType.direct, none, none, FieldValue.undefined⟩], ["src"], []⟩) ∧
    ([] : List String) ≠ ["urgent"] := by
  refine ⟨rfl, ?_⟩
  simp

/-- The sort of a two-element working set. -/
theorem jsSortDesc_pair (lc : String → String → Int) (a b : String) :
    jsSortDesc lc [a, b] = if lc b a ≤ 0 then [a, b] else [b, a] := by
  unfold jsSortDesc
  by_cases h : lc b a ≤ 0
  · rw [if_pos h]
    simp [List.insertionSort, List.orderedInsert, sortRel, h]
  · rw [if_neg h]
    simp [List.insertionSort, List.orderedInsert, sortRel, h]

/-- Claim C4 (amended): with the direct rule on `"priority"` and a
sync-matching tag present (sync prefix `"src"`, initial tags `["src"]`),
the first call with `priority = "urgent"` yields `["urgent", "src"]`
(descending order, assuming the collation puts "urgent" after "src")
and sets `lastSyncedValue` to `"urgent"`; the second call on that
output with `priority = "low"` yields `["src", "low"]` — `"urgent"` is
retracted, and the result is not `["low", "urgent"]`-like: `"urgent"`
is gone. -/
theorem c4_direct_retraction (lc : String → String → Int)
    (h1 : 0 < lc "urgent" "src") (h2 : lc "low" "src" ≤ 0) :
    synchronizeProperties lc
        ⟨[⟨"priority", SyncType.direct, none, none, FieldValue.undefined⟩], ["src"], []⟩
        ⟨["src"], [("priority", FieldValue.scalar (Scalar.str "urgent"))]⟩ =
      .ok (["urgent", "src"],
        ⟨[⟨"priority", SyncType.direct, none, none,
           FieldValue.scalar (Scalar.str "urgent")⟩], ["src"], []⟩) ∧
    synchronizeProperties lc
        ⟨[⟨"priority", SyncType.direct, none, none,
           FieldValue.scalar (Scalar.str "urgent")⟩], ["src"], []⟩
        ⟨["urgent", "src"], [("priority", FieldValue.scalar (Scalar.str "low"))]⟩ =
      .ok (["src", "low"],
        ⟨[⟨"priority", SyncType.direct, none, none,
           FieldValue.scalar (Scalar.str "low")⟩], ["src"], []⟩) := by
  constructor
  · have e1 : synchronizeProperties lc
        ⟨[⟨"priority", SyncType.direct, none, none, FieldValue.undefined⟩], ["src"], []⟩
        ⟨["src"], [("priority", FieldValue.scalar (Scalar.str "urgent"))]⟩ =
      .ok (jsSortDesc lc ["src", "urgent"],
        ⟨[⟨"priority", SyncType.direct, none, none,
           FieldValue.scalar (Scalar.str "urgent")⟩], ["src"], []⟩) := rfl
    rw [e1, jsSortDesc_pair, if_neg (by omega)]
  · have e2 : synchronizeProperties lc
        ⟨[⟨"priority", SyncType.direct, none, none,
           FieldValue.scalar (Scalar.str "urgent")⟩], ["src"], []⟩
        ⟨["urgent", "src"], [("priority", FieldValue.scalar (Scalar.str "low"))]⟩ =
      .ok (jsSortDesc lc ["src", "low"],
        ⟨[⟨"priority", SyncType.direct, none, none,
           FieldValue.scalar (Scalar.str "low")⟩], ["src"], []⟩) := rfl
    rw [e2, jsSortDesc_pair, if_pos h2]

/-- Claim C4, witness: the amended theorem at the code-point comparator. -/
theorem c4_witness :
    0 < lcStd "urgent" "src" ∧ lcStd "low" "src" ≤ 0 ∧
    synchronizeProperties lcStd
        ⟨[⟨"priority", SyncType.direct, none, none, FieldValue.undefined⟩], ["src"], []⟩
        ⟨["src"], [("priority", FieldValue.scalar (Scalar.str "urgent"))]⟩ =
      .ok (["urgent", "src"],
        ⟨[⟨"priority", SyncType.direct, none, none,
           FieldValue.scalar (Scalar.str "urgent")⟩], ["src"], []⟩) ∧
    synchronizeProperties lcStd
        ⟨[⟨"priority", SyncType.direct, none, none,
           FieldValue.scalar (Scalar.str "urgent")⟩], ["src"], []⟩
        ⟨["urgent", "src"], [("priority", FieldValue.scalar (Scalar.str "low"))]⟩ =
      .ok (["src", "low"],
        ⟨[⟨"priority", SyncType.direct, none, none,
           FieldValue.scalar (Scalar.str "low")⟩], ["src"], []⟩) := by
  refine ⟨by decide, by decide, ?_, ?_⟩
  · exact (c4_direct_retraction lcStd (by decide) (by decide)).1
  · exact (c4_direct_retraction lcStd (by decide) (by decide)).2

/-- Claim C2, counterexample: a run on which every tag is retracted and
nothing re-emitted (wikilink rule with empty prefix, field absent)
returns the empty list `[]` (`src/main.ts:244` returns `[]`, not an
omission), and `syncFrontmatter` then assigns `fm.tags = []` — the tags
attribute is written as an empty list (`some []`), never omitted. -/
theorem c2_counterexample :
    synchronizeProperties lcStd
        ⟨[⟨"proj", SyncType.wikilink, none, none, FieldValue.undefined⟩], ["x"], []⟩
        ⟨["x"], []⟩ =
      .ok ([], ⟨[⟨"proj", SyncType.wikilink, none, none, FieldValue.undefined⟩], ["x"], []⟩) ∧
    syncFrontmatter lcStd
        ⟨[⟨"proj", SyncType.wikilink, none, none, FieldValue.undefined⟩], ["x"], []⟩
        ⟨["x"], []⟩ =
      .ok (some []) ∧
    (some ([] : List String) ≠ none) := by
  refine ⟨rfl, rfl, ?_⟩
  simp

/-- Claim C2 (amended): when, after all rules have applied
retract-then-emit, the working set is empty, the engine returns the
empty list `[]` (it does not omit the tags attribute), and the caller
writes `tags = []` into the frontmatter whenever the document's tag
sequence was not already `[]`: "no tags" is represented as the empty
list, not as an absent attribute. -/
theorem c2_empty_emits_empty_list (lc : String → String → Int)
    (settings : FrontmatterSyncSettings) (fm : Frontmatter)
    (cfgs1 : List PropertySyncConfig)
    (h1 : hasIgnoredTag settings (setFromList fm.tags) = false)
    (h2 : hasSyncTag settings (setFromList fm.tags) = true)
    (hp : processConfigs fm settings.propertyConfigs (setFromList fm.tags) =
      .ok ([], cfgs1)) :
    synchronizeProperties lc settings fm =
      .ok ([], { settings with propertyConfigs := cfgs1 }) ∧
    (fm.tags ≠ [] → syncFrontmatter lc settings fm = .ok (some [])) := by
  have hrun := @synchronizeProperties_run lc settings fm [] cfgs1 h1 h2 hp
  simp only [List.length_nil, gt_iff_lt, lt_self_iff_false, if_false] at hrun
  refine ⟨hrun, ?_⟩
  intro hne
  have hsyncraw : hasSyncTag settings fm.tags = true := by
    have hcong : hasSyncTag settings (setFromList fm.tags) = hasSyncTag settings fm.tags :=
      hasSyncTag_congr (fun t => mem_setFromList)
    rw [← hcong]
    exact h2
  unfold syncFrontmatter
  rw [hsyncraw]
  simp only [Bool.not_true, Bool.false_eq_true, if_false, hrun]
  have hbeq : (fm.tags == ([] : List String)) = false := by
    simpa using hne
  rw [hbeq]
  rfl

/-- Claim C2, witness: the amended theorem at a concrete input (wikilink
rule with empty prefix and absent field retracts every tag and emits
nothing). -/
theorem c2_witness :
    hasIgnoredTag
        ⟨[⟨"proj", SyncType.wikilink, none, none, FieldValue.undefined⟩], ["x"], []⟩
        (setFromList ["x"]) = false ∧
    hasSyncTag
        ⟨[⟨"proj", SyncType.wikilink, none, none, FieldValue.undefined⟩], ["x"], []⟩
        (setFromList ["x"]) = true ∧
    processConfigs (⟨["x"], []⟩ : Frontmatter)
        [⟨"proj", SyncType.wikilink, none, none, FieldValue.undefined⟩]
        (setFromList ["x"]) =
      .ok ([], [⟨"proj", SyncType.wikilink, none, none, FieldValue.undefined⟩]) ∧
    synchronizeProperties lcStd
        ⟨[⟨"proj", SyncType.wikilink, none, none, FieldValue.undefined⟩], ["x"], []⟩
        ⟨["x"], []⟩ =
      .ok ([], ⟨[⟨"proj", SyncType.wikilink, none, none, FieldValue.undefined⟩], ["x"], []⟩) ∧
    syncFrontmatter lcStd
        ⟨[⟨"proj", SyncType.wikilink, none, none, FieldValue.undefined⟩], ["x"], []⟩
        ⟨["x"], []⟩ =
      .ok (some []) := by
  refine ⟨rfl, rfl, rfl, ?_, ?_⟩
  · exact (c2_empty_emits_empty_list lcStd
      ⟨[⟨"proj", SyncType.wikilink, none, none, FieldValue.undefined⟩], ["x"], []⟩
      ⟨["x"], []⟩
      [⟨"proj", SyncType.wikilink, none, none, FieldValue.undefined⟩]
      rfl rfl rfl).1
  · exact (c2_empty_emits_empty_list lcStd
      ⟨[⟨"proj", SyncType.wikilink, none, none, FieldValue.undefined⟩], ["x"], []⟩
      ⟨["x"], []⟩
      [⟨"proj", SyncType.wikilink, none, none, FieldValue.undefined⟩]
      rfl rfl rfl).2 (by simp)

/-! ### When the engine cannot throw -/

/-- A scalar is safe to pass through `extractName`: strings never throw,
and falsy non-strings (`0`, `false`) short-circuit before `.replace`. -/
def scalarExtractSafe : Scalar → Bool
  | .str _ => true
  | .num n => n == 0
  | .bool b => !b

/-- A field value is safe for a wikilink rule's emit phase. -/
def wikilinkSafe : FieldValue → Bool
  | .undefined => true
  | .null => true
  | .scalar v => scalarExtractSafe v
  | .list xs => xs.all scalarExtractSafe

theorem extractName_scalar_ok {v : Scalar} (h : scalarExtractSafe v = true) :
    ∃ n, extractName (.scalar v) = .ok n := by
  cases v with
  | str s => exact ⟨extractNameStr s, rfl⟩
  | num n =>
    have hn : n = 0 := by simpa [scalarExtractSafe] using h
    subst hn
    exact ⟨"", rfl⟩
  | bool b =>
    have hb : b = false := by simpa [scalarExtractSafe] using h
    subst hb
    exact ⟨"", rfl⟩

theorem extractAll_ok {xs : List Scalar} (h : ∀ e ∈ xs, scalarExtractSafe e = true) :
    ∃ ns, extractAll xs = .ok ns := by
  induction xs with
  | nil => exact ⟨[], rfl⟩
  | cons e es ih =>
    obtain ⟨n, hn⟩ := extractName_scalar_ok (h e (by simp))
    obtain ⟨ns, hns⟩ := ih (fun x hx => h x (by simp [hx]))
    refine ⟨n :: ns, ?_⟩
    unfold extractAll
    rw [hn, hns]

theorem emitList_ok {cfg : PropertySyncConfig} {pv : FieldValue}
    (h : cfg.syncType = SyncType.wikilink → wikilinkSafe pv = true) :
    ∃ es, emitList cfg pv = .ok es := by
  cases hres : emitList cfg pv with
  | ok es => exact ⟨es, rfl⟩
  | error err =>
    exfalso
    cases hst : cfg.syncType with
    | value =>
      cases hvm : cfg.valueMappings with
      | none => simp [emitList, hst, hvm] at hres
      | some ms => simp [emitList, hst, hvm] at hres
    | direct =>
      simp only [emitList, hst] at hres
      split at hres <;> simp at hres
    | wikilink =>
      have hsafe := h hst
      cases pv with
      | undefined => simp [emitList, hst, extractName] at hres
      | null => simp [emitList, hst, extractName] at hres
      | scalar v =>
        obtain ⟨n, hn⟩ := extractName_scalar_ok (by simpa [wikilinkSafe] using hsafe)
        simp [emitList, hst, hn] at hres
      | list xs =>
        obtain ⟨ns, hns⟩ := extractAll_ok
          (by simpa [wikilinkSafe, List.all_eq_true] using hsafe)
        simp [emitList, hst, hns] at hres

theorem processConfigs_ok_of_safe {fm : Frontmatter} {cfgs : List PropertySyncConfig}
    (hsafe : ∀ cfg ∈ cfgs, cfg.syncType = SyncType.wikilink →
      wikilinkSafe (fm.get cfg.propertyName) = true) (tags : List String) :
    ∃ out cfgs1, processConfigs fm cfgs tags = .ok (out, cfgs1) := by
  induction cfgs generalizing tags with
  | nil => exact ⟨tags, [], rfl⟩
  | cons cfg rest ih =>
    obtain ⟨es, hes⟩ := emitList_ok (hsafe cfg (by simp))
    obtain ⟨out, cfgs1, hrest⟩ :=
      ih (fun c hc => hsafe c (by simp [hc])) (es.foldl insertTag (applyRetract cfg tags))
    refine ⟨out, updCfg fm cfg :: cfgs1, ?_⟩
    have hstep : processConfig fm tags cfg =
        .ok (es.foldl insertTag (applyRetract cfg tags), updCfg fm cfg) := by
      unfold processConfig
      rw [hes]
    unfold processConfigs
    simp only [hstep, hrest]

/-- Undefined (absent) field values make every strategy's emit phase a
no-op rather than an error. -/
theorem emitList_undefined (cfg : PropertySyncConfig) :
    emitList cfg FieldValue.undefined = .ok [] := by
  cases hst : cfg.syncType with
  | wikilink => simp [emitList, hst, extractName]
  | direct => simp [emitList, hst]
  | value =>
    cases hvm : cfg.valueMappings with
    | none => simp [emitList, hst, hvm]
    | some ms =>
      have hf : ms.find?
          (fun m => FieldValue.undefined == FieldValue.scalar (Scalar.str m.propertyValue)) =
          none := by
        rw [List.find?_eq_none]
        intro m hm
        simp
      simp [emitList, hst, hvm, hf]

/-- Claim C7 (amended): for every input in the declared domain in which
each field consumed by a wikilink rule is safe — absent, `null`, a
string, a falsy scalar (`0`, `false`), or a sequence of such — the
engine terminates normally with a result, and an absent/undefined field
value makes every rule skip its emit phase rather than fail.  (As stated
the claim is false: a truthy non-string consumed by a wikilink rule
throws a `TypeError`, see the counterexample.) -/
theorem c7_engine_total (lc : String → String → Int)
    (settings : FrontmatterSyncSettings) (fm : Frontmatter)
    (hsafe : ∀ cfg ∈ settings.propertyConfigs, cfg.syncType = SyncType.wikilink →
      wikilinkSafe (fm.get cfg.propertyName) = true) :
    (∃ res, synchronizeProperties lc settings fm = .ok res) ∧
    (∀ cfg : PropertySyncConfig, emitList cfg FieldValue.undefined = .ok []) := by
  refine ⟨?_, emitList_undefined⟩
  by_cases hig : hasIgnoredTag settings (setFromList fm.tags) = true
  · exact ⟨_, synchronizeProperties_blocked hig⟩
  · have hig' : hasIgnoredTag settings (setFromList fm.tags) = false := by simpa using hig
    by_cases hsy : hasSyncTag settings (setFromList fm.tags) = true
    · obtain ⟨out, cfgs1, hp⟩ := processConfigs_ok_of_safe hsafe (setFromList fm.tags)
      exact ⟨_, synchronizeProperties_run hig' hsy hp⟩
    · exact ⟨_, synchronizeProperties_noSync hig' (by simpa using hsy)⟩

/-- Claim C7, counterexample: a wikilink rule over a numeric field value
(a scalar in the declared domain) makes the engine throw a `TypeError`
(`value.replace` is not a function on a number), so the engine is not
total over its declared input domain. -/
theorem c7_counterexample :
    synchronizeProperties lcStd
        ⟨[⟨"p", SyncType.wikilink, none, some "w/", FieldValue.undefined⟩], ["x"], []⟩
        ⟨["x"], [("p", FieldValue.scalar (Scalar.num 5))]⟩ =
      .error JsError.typeError := rfl

/-- Claim C7, witness: the amended totality theorem at a concrete input
mixing all three strategies, with the wikilink field holding a string. -/
theorem c7_witness :
    (∀ cfg ∈ ([⟨"p", SyncType.wikilink, none, some "w/", FieldValue.undefined⟩,
        ⟨"q", SyncType.direct, none, none, FieldValue.undefined⟩,
        ⟨"r", SyncType.value, some [⟨"a", "b"⟩], none, FieldValue.undefined⟩] :
          List PropertySyncConfig),
      cfg.syncType = SyncType.wikilink →
        wikilinkSafe ((⟨["x"], [("p", FieldValue.scalar (Scalar.str "[[A]]")),
          ("q", FieldValue.scalar (Scalar.num 3))]⟩ : Frontmatter).get
            cfg.propertyName) = true) ∧
    (∃ res, synchronizeProperties lcStd
        ⟨[⟨"p", SyncType.wikilink, none, some "w/", FieldValue.undefined⟩,
          ⟨"q", SyncType.direct, none, none, FieldValue.undefined⟩,
          ⟨"r", SyncType.value, some [⟨"a", "b"⟩], none, FieldValue.undefined⟩], ["x"], []⟩
        ⟨["x"], [("p", FieldValue.scalar (Scalar.str "[[A]]")),
          ("q", FieldValue.scalar (Scalar.num 3))]⟩ = .ok res) ∧
    (∀ cfg : PropertySyncConfig, emitList cfg FieldValue.undefined = .ok []) := by
  refine ⟨by decide, ?_, ?_⟩
  · exact (c7_engine_total lcStd
      ⟨[⟨"p", SyncType.wikilink, none, some "w/", FieldValue.undefined⟩,
        ⟨"q", SyncType.direct, none, none, FieldValue.undefined⟩,
        ⟨"r", SyncType.value, some [⟨"a", "b"⟩], none, FieldValue.undefined⟩], ["x"], []⟩
      ⟨["x"], [("p", FieldValue.scalar (Scalar.str "[[A]]")),
        ("q", FieldValue.scalar (Scalar.num 3))]⟩
      (by decide)).1
  · exact (c7_engine_total lcStd
      ⟨[⟨"p", SyncType.wikilink, none, some "w/", FieldValue.undefined⟩,
        ⟨"q", SyncType.direct, none, none, FieldValue.undefined⟩,
        ⟨"r", SyncType.value, some [⟨"a", "b"⟩], none, FieldValue.undefined⟩], ["x"], []⟩
      ⟨["x"], [("p", FieldValue.scalar (Scalar.str "[[A]]")),
        ("q", FieldValue.scalar (Scalar.num 3))]⟩
      (by decide)).2

/-! ### Claim C10 machinery -/

theorem emittedAlive_exists {fm : Frontmatter} {t : String}
    {cfgs : List PropertySyncConfig} (h : emittedAlive fm t cfgs) :
    ∃ c ∈ cfgs, ∃ es, emitList c (fm.get c.propertyName) = .ok es ∧ t ∈ es := by
  induction cfgs with
  | nil => exact absurd h (by simp [emittedAlive])
  | cons cfg rest ih =>
    rcases emittedAlive_cons.mp h with ⟨⟨es, hes, hmem⟩, _⟩ | hrest
    · exact ⟨cfg, by simp, es, hes, hmem⟩
    · obtain ⟨c, hc, es, hes, hmem⟩ := ih hrest
      exact ⟨c, by simp [hc], es, hes, hmem⟩

theorem processConfigs_append {fm : Frontmatter} {pre rest : List PropertySyncConfig}
    {tags out : List String} {cfgs1 : List PropertySyncConfig}
    (h : processConfigs fm (pre ++ rest) tags = .ok (out, cfgs1)) :
    ∃ mid cfgsA cfgsB, processConfigs fm pre tags = .ok (mid, cfgsA) ∧
      processConfigs fm rest mid = .ok (out, cfgsB) ∧ cfgs1 = cfgsA ++ cfgsB := by
  induction pre generalizing tags cfgs1 with
  | nil => exact ⟨tags, [], cfgs1, rfl, h, rfl⟩
  | cons p pre' ih =>
    rw [List.cons_append] at h
    unfold processConfigs at h
    split at h
    · exact absurd h (by simp)
    · rename_i pr tags1 cfg1 hstep
      split at h
      · exact absurd h (by simp)
      · rename_i pr2 tags2 rest1 hrest
        cases h
        obtain ⟨mid, cfgsA, cfgsB, hA, hB, hsplit⟩ := ih hrest
        refine ⟨mid, cfg1 :: cfgsA, cfgsB, ?_, hB, by rw [hsplit]; rfl⟩
        unfold processConfigs
        simp only [hstep, hA]

/-- The retract phase of a wikilink rule with an undefined or empty
`tagPrefix` removes every tag: every string starts with `""`. -/
theorem applyRetract_emptyPrefix {cfg : PropertySyncConfig}
    (hw : cfg.syncType = SyncType.wikilink)
    (hp : cfg.tagPrefix = none ∨ cfg.tagPrefix = some "") (ts : List String) :
    applyRetract cfg ts = [] := by
  have hgd : cfg.tagPrefix.getD "" = "" := by
    rcases hp with hp | hp <;> rw [hp] <;> rfl
  unfold applyRetract
  rw [hw, hgd]
  have hall : ∀ t : String, jsStartsWith t "" = true := by
    intro t
    show List.isPrefixOf [] t.data = true
    simp [List.isPrefixOf]
  simp [hall]

/-- Claim C10: a wikilink rule whose `tagPrefix` is undefined or the
empty string retracts every tag from the working set, so on every input
on which synchronization proceeds, every tag of the output was emitted
by that rule or a later one — no earlier tag survives unless re-emitted. -/
theorem c10_empty_prefix_wipes (lc : String → String → Int)
    (settings : FrontmatterSyncSettings) (fm : Frontmatter)
    (cfg : PropertySyncConfig) (pre post : List PropertySyncConfig)
    (out : List String) (settingsOut : FrontmatterSyncSettings)
    (hw : cfg.syncType = SyncType.wikilink)
    (hp : cfg.tagPrefix = none ∨ cfg.tagPrefix = some "")
    (hcfgs : settings.propertyConfigs = pre ++ cfg :: post)
    (hig : hasIgnoredTag settings (setFromList fm.tags) = false)
    (hsy : hasSyncTag settings (setFromList fm.tags) = true)
    (hrun : synchronizeProperties lc settings fm = .ok (out, settingsOut)) :
    (∀ ts, applyRetract cfg ts = []) ∧
    (∀ t ∈ out, ∃ c ∈ cfg :: post,
      ∃ es, emitList c (fm.get c.propertyName) = .ok es ∧ t ∈ es) := by
  refine ⟨applyRetract_emptyPrefix hw hp, ?_⟩
  intro t ht
  cases hproc : processConfigs fm settings.propertyConfigs (setFromList fm.tags) with
  | error err =>
    have : synchronizeProperties lc settings fm = .error err := by
      simp [synchronizeProperties, hig, hsy, hproc]
    rw [this] at hrun
    exact absurd hrun (by simp)
  | ok pr =>
    obtain ⟨tags1, cfgs1⟩ := pr
    rw [synchronizeProperties_run hig hsy hproc] at hrun
    simp only [Except.ok.injEq, Prod.mk.injEq] at hrun
    obtain ⟨hout, _⟩ := hrun
    have htags1 : t ∈ tags1 := by
      by_cases hlen : tags1.length > 0
      · rw [← hout, if_pos hlen] at ht
        exact mem_jsSortDesc.mp ht
      · rw [← hout, if_neg hlen] at ht
        exact absurd ht (by simp)
    rw [hcfgs] at hproc
    obtain ⟨mid, cfgsA, cfgsB, hA, hB, _⟩ := processConfigs_append hproc
    unfold processConfigs at hB
    split at hB
    · exact absurd hB (by simp)
    · rename_i pr2 start cfgC hstep
      split at hB
      · exact absurd hB (by simp)
      · rename_i pr3 tagsR cfgsR hrest
        cases hB
        rcases (mem_processConfigs hrest t).mp htags1 with halive | ⟨hstart, _⟩
        · obtain ⟨c, hc, es, hes, hmem⟩ := emittedAlive_exists halive
          exact ⟨c, by simp [hc], es, hes, hmem⟩
        · -- t entered through this rule's own emit: retract left nothing
          unfold processConfig at hstep
          cases hemit : emitList cfg (fm.get cfg.propertyName) with
          | error err => rw [hemit] at hstep; exact absurd hstep (by simp)
          | ok es =>
            rw [hemit] at hstep
            have hstart_eq : start = es.foldl insertTag (applyRetract cfg mid) := by
              cases hstep
              rfl
            rw [hstart_eq, applyRetract_emptyPrefix hw hp] at hstart
            rcases mem_foldl_insertTag.mp hstart with hin | hin
            · exact absurd hin (by simp)
            · exact ⟨cfg, by simp, es, hemit, hin⟩

/-- Claim C10, witness: a wikilink rule with no `tagPrefix` on a
document whose only tag `"x"` gates the sync; the retract phase of the
rule empties any working set, and every output tag (here `"A"`) comes
from the rule's own emit phase. -/
theorem c10_witness :
    hasIgnoredTag ⟨[⟨"proj", SyncType.wikilink, none, none, FieldValue.undefined⟩],
      ["x"], []⟩ (setFromList ["x"]) = false ∧
    hasSyncTag ⟨[⟨"proj", SyncType.wikilink, none, none, FieldValue.undefined⟩],
      ["x"], []⟩ (setFromList ["x"]) = true ∧
    synchronizeProperties lcStd
        ⟨[⟨"proj", SyncType.wikilink, none, none, FieldValue.undefined⟩], ["x"], []⟩
        ⟨["x"], [("proj", FieldValue.scalar (Scalar.str "[[A]]"))]⟩ =
      .ok (["A"],
        ⟨[⟨"proj", SyncType.wikilink, none, none, FieldValue.undefined⟩], ["x"], []⟩) ∧
    (∀ ts, applyRetract ⟨"proj", SyncType.wikilink, none, none, FieldValue.undefined⟩ ts = []) ∧
    (∀ t ∈ ["A"], ∃ c ∈ [⟨"proj", SyncType.wikilink, none, none, FieldValue.undefined⟩],
      ∃ es, emitList c ((⟨["x"], [("proj", FieldValue.scalar (Scalar.str "[[A]]"))]⟩ :
        Frontmatter).get (PropertySyncConfig.propertyName c)) = .ok es ∧ t ∈ es) := by
  refine ⟨rfl, rfl, rfl, ?_, ?_⟩
  · exact (c10_empty_prefix_wipes lcStd
      ⟨[⟨"proj", SyncType.wikilink, none, none, FieldValue.undefined⟩], ["x"], []⟩
      ⟨["x"], [("proj", FieldValue.scalar (Scalar.str "[[A]]"))]⟩
      ⟨"proj", SyncType.wikilink, none, none, FieldValue.undefined⟩ [] []
      ["A"]
      ⟨[⟨"proj", SyncType.wikilink, none, none, FieldValue.undefined⟩], ["x"], []⟩
      rfl (Or.inl rfl) rfl rfl rfl rfl).1
  · exact (c10_empty_prefix_wipes lcStd
      ⟨[⟨"proj", SyncType.wikilink, none, none, FieldValue.undefined⟩], ["x"], []⟩
      ⟨["x"], [("proj", FieldValue.scalar (Scalar.str "[[A]]"))]⟩
      ⟨"proj", SyncType.wikilink, none, none, FieldValue.undefined⟩ [] []
      ["A"]
      ⟨[⟨"proj", SyncType.wikilink, none, none, FieldValue.undefined⟩], ["x"], []⟩
      rfl (Or.inl rfl) rfl rfl rfl rfl).2

/-! ### Claim C8 machinery: split/replace/join is a character map -/

theorem jsSplit_ne_nil (sep : Char) : ∀ l : List Char, jsSplit sep l ≠ []
  | [] => by simp [jsSplit]
  | c :: cs => by
    unfold jsSplit
    by_cases h : c == sep
    · simp [h]
    · simp only [h]
      cases hs : jsSplit sep cs <;> simp

theorem jsJoin_cons_cons (sep : Char) (x : Char) (s : List Char)
    (ss : List (List Char)) :
    jsJoin sep ((x :: s) :: ss) = x :: jsJoin sep (s :: ss) := by
  unfold jsJoin
  cases ss <;> simp [List.intersperse]

theorem jsJoin_nil_cons (sep : Char) (ss : List (List Char)) (h : ss ≠ []) :
    jsJoin sep ([] :: ss) = sep :: jsJoin sep ss := by
  cases ss with
  | nil => exact absurd rfl h
  | cons s ss' =>
    unfold jsJoin
    simp [List.intersperse]

theorem jsSplit_cons_sep {sep c : Char} (cs : List Char) (h : (c == sep) = true) :
    jsSplit sep (c :: cs) = [] :: jsSplit sep cs := by
  conv_lhs => unfold jsSplit
  rw [if_pos h]

theorem jsSplit_cons_ne {sep c : Char} {cs : List Char} {s : List Char}
    {ss : List (List Char)} (h : ¬(c == sep) = true) (hS : jsSplit sep cs = s :: ss) :
    jsSplit sep (c :: cs) = (c :: s) :: ss := by
  conv_lhs => unfold jsSplit
  rw [if_neg h, hS]

/-- Splitting on a separator, transforming each segment character-wise,
and rejoining is the same as a single character map that fixes the
separator. -/
theorem jsJoin_map_jsSplit (sep : Char) (f : Char → Char) :
    ∀ l : List Char,
      jsJoin sep ((jsSplit sep l).map (List.map f)) =
        l.map (fun c => if c == sep then sep else f c)
  | [] => by simp [jsSplit, jsJoin, List.intersperse]
  | c :: cs => by
    by_cases h : (c == sep) = true
    · rw [jsSplit_cons_sep cs h, List.map_cons, List.map_nil,
        jsJoin_nil_cons sep _ (by
          intro hnil
          exact jsSplit_ne_nil sep cs (List.map_eq_nil_iff.mp hnil)),
        jsJoin_map_jsSplit sep f cs, List.map_cons]
      simp [h]
    · obtain ⟨s, ss, hS⟩ : ∃ s ss, jsSplit sep cs = s :: ss := by
        cases hx : jsSplit sep cs with
        | nil => exact absurd hx (jsSplit_ne_nil sep cs)
        | cons s ss => exact ⟨s, ss, rfl⟩
      rw [jsSplit_cons_ne h hS, List.map_cons, List.map_cons, jsJoin_cons_cons]
      have hrec := jsJoin_map_jsSplit sep f cs
      rw [hS, List.map_cons] at hrec
      rw [hrec, List.map_cons]
      simp [h]

/-- Claim C8: the value sanitizer converts a scalar to its string form,
splits on `/`, replaces within each segment every character that is not
an ASCII letter, digit or underscore with `_`, and rejoins with `/` —
equivalently, it maps every non-separator non-word character to `_` —
and in particular `sanitize("Sci-Fi/Space Opera!") = "Sci_Fi/Space_Opera_"`. -/
theorem c8_sanitizer :
    (∀ v : Scalar,
      sanitizeTagValue (.scalar v) =
        ⟨(Scalar.toJsString v).data.map
          (fun c => if c == '/' then '/' else sanitizeChar c)⟩) ∧
    sanitizeTagValue (.scalar (.str "Sci-Fi/Space Opera!")) = "Sci_Fi/Space_Opera_" := by
  refine ⟨?_, rfl⟩
  intro v
  show sanitizeString (Scalar.toJsString v) = _
  unfold sanitizeString
  rw [jsJoin_map_jsSplit]

/-! ### Claim C9 machinery: the split-based extraction steps -/

theorem jsSplit_headD (sep : Char) :
    ∀ l : List Char, (jsSplit sep l).headD [] = l.takeWhile (fun c => !(c == sep))
  | [] => rfl
  | c :: cs => by
    by_cases h : (c == sep) = true
    · rw [jsSplit_cons_sep cs h, List.takeWhile_cons]
      simp [h]
    · obtain ⟨s, ss, hS⟩ : ∃ s ss, jsSplit sep cs = s :: ss := by
        cases hx : jsSplit sep cs with
        | nil => exact absurd hx (jsSplit_ne_nil sep cs)
        | cons s ss => exact ⟨s, ss, rfl⟩
      rw [jsSplit_cons_ne h hS, List.takeWhile_cons]
      have hrec := jsSplit_headD sep cs
      rw [hS] at hrec
      simp only [List.headD_cons] at hrec ⊢
      simp [h, hrec]

theorem jsSplit_append_sep (sep : Char) :
    ∀ xs : List Char, jsSplit sep (xs ++ [sep]) = jsSplit sep xs ++ [[]]
  | [] => by
    rw [List.nil_append, jsSplit_cons_sep [] (by simp)]
    rfl
  | c :: xs => by
    by_cases h : (c == sep) = true
    · rw [List.cons_append, jsSplit_cons_sep (xs ++ [sep]) h, jsSplit_append_sep sep xs,
        jsSplit_cons_sep xs h]
      rfl
    · obtain ⟨s, ss, hS⟩ : ∃ s ss, jsSplit sep xs = s :: ss := by
        cases hx : jsSplit sep xs with
        | nil => exact absurd hx (jsSplit_ne_nil sep xs)
        | cons s ss => exact ⟨s, ss, rfl⟩
      have hS' : jsSplit sep (xs ++ [sep]) = s :: (ss ++ [[]]) := by
        rw [jsSplit_append_sep sep xs, hS]
        rfl
      rw [List.cons_append, jsSplit_cons_ne h hS', jsSplit_cons_ne h hS]
      rfl

theorem jsSplit_append_ne (sep x : Char) (hx : ¬(x == sep) = true) :
    ∀ xs : List Char, jsSplit sep (xs ++ [x]) =
      (jsSplit sep xs).dropLast ++ [(jsSplit sep xs).getLastD [] ++ [x]]
  | [] => by
    rw [List.nil_append, jsSplit_cons_ne hx (rfl : jsSplit sep [] = [] :: [])]
    rfl
  | c :: xs => by
    by_cases h : (c == sep) = true
    · obtain ⟨s, ss, hS⟩ : ∃ s ss, jsSplit sep xs = s :: ss := by
        cases hx2 : jsSplit sep xs with
        | nil => exact absurd hx2 (jsSplit_ne_nil sep xs)
        | cons s ss => exact ⟨s, ss, rfl⟩
      rw [List.cons_append, jsSplit_cons_sep (xs ++ [x]) h, jsSplit_append_ne sep x hx xs,
        jsSplit_cons_sep xs h, hS]
      simp [List.getLastD_cons]
    · obtain ⟨s, ss, hS⟩ : ∃ s ss, jsSplit sep xs = s :: ss := by
        cases hx2 : jsSplit sep xs with
        | nil => exact absurd hx2 (jsSplit_ne_nil sep xs)
        | cons s ss => exact ⟨s, ss, rfl⟩
      cases ss with
      | nil =>
        have h1 : jsSplit sep (xs ++ [x]) = (s ++ [x]) :: [] := by
          rw [jsSplit_append_ne sep x hx xs, hS]
          rfl
        rw [List.cons_append, jsSplit_cons_ne h h1, jsSplit_cons_ne h hS]
        simp
      | cons s1 ss1 =>
        have h1 : jsSplit sep (xs ++ [x]) =
            s :: ((s1 :: ss1).dropLast ++ [(s1 :: ss1).getLastD [] ++ [x]]) := by
          rw [jsSplit_append_ne sep x hx xs, hS]
          simp only [List.dropLast_cons₂, List.getLastD_cons, List.cons_append]
        rw [List.cons_append, jsSplit_cons_ne h h1, jsSplit_cons_ne h hS]
        simp only [List.dropLast_cons₂, List.getLastD_cons, List.cons_append]

theorem jsSplit_getLastD (sep : Char) (l : List Char) :
    (jsSplit sep l).getLastD [] = (l.reverse.takeWhile (fun c => !(c == sep))).reverse := by
  induction l using List.reverseRecOn with
  | nil => rfl
  | append_singleton xs x ih =>
    by_cases h : (x == sep) = true
    · have hx : x = sep := by simpa using h
      subst hx
      rw [jsSplit_append_sep, List.getLastD_concat, List.reverse_append]
      simp
    · have hpx : (!(x == sep)) = true := by simp [h]
      rw [jsSplit_append_ne sep x h, List.getLastD_concat, List.reverse_append,
        List.reverse_singleton, List.singleton_append, List.takeWhile_cons, if_pos hpx,
        List.reverse_cons, ih]

/-- From the spec (§4.2): "split the remainder on `/` and take the last
segment (the path tail)" — equivalently, the characters after the last
separator. -/
def specLastSegment (sep : Char) (l : List Char) : List Char :=
  (l.reverse.takeWhile (fun c => !(c == sep))).reverse

/-- From the spec (§4.2): "split on `|` and take the first segment" —
equivalently, the characters before the first separator. -/
def specBeforeAlias (l : List Char) : List Char :=
  l.takeWhile (fun c => !(c == '|'))

/-- Modelled from the spec §4.2: the whole extraction pipeline in the
spec's wording — strip `[[`/`]]`, take the path tail, discard the alias,
strip a trailing `.md`, trim. -/
def extractDisplayNameSpec (s : String) : String :=
  let tail := specBeforeAlias (specLastSegment '/' (stripBrackets s).data)
  let noExt := if jsEndsWith ⟨tail⟩ ".md" then tail.take (tail.length - 3) else tail
  jsTrim ⟨noExt⟩

/-- Claim C9: `extractName` strips a leading `[[` and trailing `]]` if
present, takes the last `/`-separated segment, takes the part before
the first `|`, strips a trailing `.md`, and trims whitespace (and
returns `""` for empty input, which the spec pipeline also yields); in
particular `"[[Projects/My Book.md|Book Alias]]"` extracts to
`"My Book"`, and a wikilink rule with `tagPrefix = "book/"` emits
`"book/My_Book"` from it. -/
theorem c9_reference_extraction :
    (∀ s : String, extractNameStr s = extractDisplayNameSpec s) ∧
    extractName (.scalar (.str "[[Projects/My Book.md|Book Alias]]")) = .ok "My Book" ∧
    emitList ⟨"book", SyncType.wikilink, none, some "book/", FieldValue.undefined⟩
        (.scalar (.str "[[Projects/My Book.md|Book Alias]]")) =
      .ok ["book/My_Book"] := by
  refine ⟨?_, rfl, rfl⟩
  intro s
  by_cases hs : (s == "") = true
  · have : s = "" := by simpa using hs
    subst this
    rfl
  · unfold extractNameStr extractDisplayNameSpec
    rw [if_neg hs]
    simp only [jsSplit_getLastD, jsSplit_headD]
    rfl
